import Mathlib

/-!
Verification of the salt-ssh `SSHClient` core
(`src/salt/client/ssh/client.py`): the override sanitizer
(`sanitize_kwargs`), the job builder (`_prep_ssh`) and the call-shape
adapters (`cmd_iter`, `cmd`, `cmd_sync`, `cmd_async`).

The Python code is shallowly embedded: Python values become the
inductive `Val`, dictionaries become insertion-ordered association
lists (`Dict`), exceptions become `Except PyErr`, and the execution
engine (`salt.client.ssh.SSH`, outside this file's source) is a
function parameter supplying the per-target result records.
-/

set_option autoImplicit false

namespace SaltSSH

/-- Exception kinds that the embedded code can raise.  `valueError`,
`typeError`, `attributeError` and `keyError` model the Python builtins
of the same names; `saltClientError` models `salt.exceptions.SaltClientError`;
`notImplementedError` models the Python builtin `NotImplementedError`
(present in the error domain so that statements can distinguish a
dedicated not-implemented kind from the generic client error). -/
inductive PyErr where
  | valueError
  | typeError
  | attributeError
  | keyError
  | saltClientError
  | notImplementedError
deriving Repr, DecidableEq

/-- The Python value domain the client manipulates: `None`, booleans,
integers, strings and lists.  (Floats, tuples, dicts-as-values and other
types are not exercised by this module's logic; tuples are identified
with lists, which is what `list()` and `+` do to them here anyway.) -/
inductive Val where
  | none : Val
  | bool : Bool → Val
  | int : Int → Val
  | str : String → Val
  | list : List Val → Val
deriving Repr

/-- A Python dictionary with string keys, modelled as an association
list in insertion order (CPython dicts preserve insertion order). -/
abbrev Dict := List (String × Val)

/-- `d[k]` lookup returning `Option`: models `k in d` / `d.get(k)`. -/
def dictGet : Dict → String → Option Val
  | [], _ => Option.none
  | (k0, v0) :: rest, k => if k0 == k then Option.some v0 else dictGet rest k

/-- `d.get(k, default)`. -/
def dictGetD (d : Dict) (k : String) (v : Val) : Val :=
  (dictGet d k).getD v

/-- `d[k] = v`: replaces the value in place if the key is present
(keeping its position), otherwise appends the new entry at the end —
CPython dict assignment semantics. -/
def dictSet : Dict → String → Val → Dict
  | [], k, v => [(k, v)]
  | (k0, v0) :: rest, k, v =>
    if k0 == k then (k0, v) :: rest else (k0, v0) :: dictSet rest k v

/-- `d.update(r)`: repeated `dictSet`, left to right over `r`. -/
def dictUpdate (d : Dict) (r : Dict) : Dict :=
  r.foldl (fun acc kv => dictSet acc kv.1 kv.2) d

/-- `del d[k]` (guarded by `k in d` at the call sites, so absence is a
no-op here, matching `if k in d: del d[k]`). -/
def dictDel (d : Dict) (k : String) : Dict :=
  d.eraseP (fun kv => kv.1 == k)

/-! ## Models of the Python builtins used by the client -/

/-- Python truthiness, as used by `bool(...)` and `if timeout:`. -/
def pyTruthy : Val → Bool
  | .none => false
  | .bool b => b
  | .int n => n != 0
  | .str s => s != ""
  | .list l => !l.isEmpty

mutual

/-- Python `repr` (quote escaping inside string reprs is not modelled;
no claim exercises it). -/
def pyRepr : Val → String
  | .none => "None"
  | .bool b => if b then "True" else "False"
  | .int n => toString n
  | .str s => "\x27" ++ s ++ "\x27"
  | .list l => "[" ++ pyReprList l ++ "]"

/-- Comma-separated reprs of the elements of a list. -/
def pyReprList : List Val → String
  | [] => ""
  | [x] => pyRepr x
  | x :: y :: rest => pyRepr x ++ ", " ++ pyReprList (y :: rest)

end

/-- Python `str(...)`: identity on strings, `repr` otherwise
(for the types in `Val` this matches CPython).  Never raises. -/
def pyStr : Val → String
  | .str s => s
  | v => pyRepr v

/-- Parse an optionally signed decimal integer literal — the strings
accepted by Python `int(...)` (whitespace trimming and underscore
separators are not modelled; no claim exercises them). -/
def parseIntStr (s : String) : Option Int :=
  match s.data with
  | [] => Option.none
  | '-' :: ds =>
    if ds ≠ [] ∧ ds.all Char.isDigit
    then Option.some (-(Int.ofNat (ds.foldl (fun n c => n * 10 + c.toNat - 48) 0)))
    else Option.none
  | '+' :: ds =>
    if ds ≠ [] ∧ ds.all Char.isDigit
    then Option.some (Int.ofNat (ds.foldl (fun n c => n * 10 + c.toNat - 48) 0))
    else Option.none
  | ds =>
    if ds.all Char.isDigit
    then Option.some (Int.ofNat (ds.foldl (fun n c => n * 10 + c.toNat - 48) 0))
    else Option.none

/-- Python `int(...)`: identity on ints, `0/1` on bools, literal parse
on strings (`ValueError` on a malformed literal), `TypeError` on `None`
and lists. -/
def pyInt : Val → Except PyErr Int
  | .int n => .ok n
  | .bool b => .ok (if b then 1 else 0)
  | .str s =>
    match parseIntStr s with
    | Option.some n => .ok n
    | Option.none => .error .valueError
  | .none => .error .typeError
  | .list _ => .error .typeError

/-- Python `list(...)`: shallow copy of a list, the characters of a
string (as one-character strings), `TypeError` on non-iterables. -/
def pyList : Val → Except PyErr (List Val)
  | .list l => .ok l
  | .str s => .ok (s.data.map (fun c => Val.str (String.mk [c])))
  | .none => .error .typeError
  | .bool _ => .error .typeError
  | .int _ => .error .typeError

/-- `sub` occurs as a contiguous substring of `l`. -/
def listContainsSub (sub l : List Char) : Bool :=
  (List.range (l.length + 1)).any (fun i => sub.isPrefixOf (l.drop i))

/-- Python `s.find(sub) != -1`: `sub` occurs in `s`. -/
def strContains (s sub : String) : Bool :=
  listContainsSub sub.data s.data

mutual

/-- `copy.deepcopy` on a plain value.  On the immutable value view this
is the structural identity; the heap model below captures the aliasing
content of the deep copy. -/
def pyDeepcopy : Val → Val
  | .none => .none
  | .bool b => .bool b
  | .int n => .int n
  | .str s => .str s
  | .list l => .list (pyDeepcopyList l)

/-- Deep copy of each element of a list. -/
def pyDeepcopyList : List Val → List Val
  | [] => []
  | x :: rest => pyDeepcopy x :: pyDeepcopyList rest

end

/-- Deep copy of a dictionary (string keys are immutable; values are
deep-copied). -/
def pyDeepcopyDict : Dict → Dict
  | [] => []
  | (k, v) :: rest => (k, pyDeepcopy v) :: pyDeepcopyDict rest

mutual

theorem pyDeepcopy_eq : (v : Val) → pyDeepcopy v = v
  | .none => rfl
  | .bool _ => rfl
  | .int _ => rfl
  | .str _ => rfl
  | .list l => by rw [pyDeepcopy, pyDeepcopyList_eq l]

theorem pyDeepcopyList_eq : (l : List Val) → pyDeepcopyList l = l
  | [] => rfl
  | x :: rest => by rw [pyDeepcopyList, pyDeepcopy_eq x, pyDeepcopyList_eq rest]

end

theorem pyDeepcopyDict_eq : (d : Dict) → pyDeepcopyDict d = d
  | [] => rfl
  | (k, v) :: rest => by rw [pyDeepcopyDict, pyDeepcopy_eq v, pyDeepcopyDict_eq rest]

/-- Modelled from the spec: `salt.utils.args.condition_input` lives
outside this module's source (`src/` holds only `client.py`).  The spec
says only that it is "a single argument-conditioning step that folds
keyword arguments into the positional vector", "produces one ordered
argument vector".  We model it as: the positional part (a list or
tuple's elements, a bare value as a singleton, `None` as empty)
followed by the keyword-argument map appended as one trailing element
when it is non-empty. -/
def condition_input (arg : Val) (kwarg : Val) : List Val :=
  (match arg with
   | .list l => l
   | .none => []
   | a => [a]) ++
  (match kwarg with
   | .list l => if l.isEmpty then [] else [Val.list l]
   | .none => []
   | k => [k])

/-! ## The override sanitizer (`SSHClient.sanitize_kwargs`) -/

/-- The expected-type tags of the allow-list: the Python type objects
`str`, `int`, `bool`, `list` the source pairs each field name with. -/
inductive Kind where
  | str
  | int
  | bool
  | list
deriving Repr, DecidableEq

/-- The fixed allow-list `roster_vals` of `sanitize_kwargs`, verbatim
from the source: fifteen (field name, expected type) pairs. -/
def roster_vals : List (String × Kind) :=
  [("host", .str),
   ("ssh_user", .str),
   ("ssh_passwd", .str),
   ("ssh_port", .int),
   ("ssh_sudo", .bool),
   ("ssh_sudo_user", .str),
   ("ssh_priv", .str),
   ("ssh_priv_passwd", .str),
   ("ssh_identities_only", .bool),
   ("ssh_remote_port_forwards", .str),
   ("ssh_options", .list),
   ("roster_file", .str),
   ("rosters", .list),
   ("ignore_host_keys", .bool),
   ("raw_shell", .bool)]

/-- The injection substring `sanitize_kwargs` filters:
`'ProxyCommand'`. -/
def proxySub : String := "ProxyCommand"

/-- The per-element loop of the `kind is list` branch: each `item` must
answer `item.find` (so a non-string raises `AttributeError`), elements
containing `proxySub` are skipped (with a warning), the rest kept in
order. -/
def filterListItems : List Val → Except PyErr (List Val)
  | [] => .ok []
  | .str s :: rest =>
    match filterListItems rest with
    | .error e => .error e
    | .ok r => if strContains s proxySub then .ok r else .ok (.str s :: r)
  | .none :: _ => .error .attributeError
  | .bool _ :: _ => .error .attributeError
  | .int _ :: _ => .error .attributeError
  | .list _ :: _ => .error .attributeError

/-- One allow-list entry's contribution for the input value `v`:
the loop body of `sanitize_kwargs` after the `name not in kwargs`
test.  `ok none` means the key is dropped (the `continue` branches:
a coercion `ValueError`, or an unsafe string); `ok (some val)` means
`sane_kwargs[name] = val`; `error e` is an uncaught exception
(only `ValueError` is caught by the source's `try`). -/
def stepValue (kind : Kind) (v : Val) : Except PyErr (Option Val) :=
  match kind with
  | .int =>
    match pyInt v with
    | .error .valueError => .ok Option.none
    | .error e => .error e
    | .ok n => .ok (Option.some (.int n))
  | .bool => .ok (Option.some (.bool (pyTruthy v)))
  | .str =>
    let s := pyStr v
    if strContains s proxySub then .ok Option.none
    else .ok (Option.some (.str s))
  | .list =>
    match pyList v with
    | .error .valueError => .ok Option.none
    | .error e => .error e
    | .ok items =>
      match filterListItems items with
      | .error e => .error e
      | .ok sv => .ok (Option.some (.list sv))

/-- The `for name, kind in roster_vals` loop of `sanitize_kwargs`,
with `sane` the accumulated `sane_kwargs`. -/
def sanitizeGo (kwargs : Dict) : List (String × Kind) → Dict → Except PyErr Dict
  | [], sane => .ok sane
  | nk :: rest, sane =>
    match dictGet kwargs nk.1 with
    | Option.none => sanitizeGo kwargs rest sane
    | Option.some v =>
      match stepValue nk.2 v with
      | .error e => .error e
      | .ok Option.none => sanitizeGo kwargs rest sane
      | .ok (Option.some val) => sanitizeGo kwargs rest (dictSet sane nk.1 val)

/-- `SSHClient.sanitize_kwargs`: filter an override map against the
allow-list, coercing types and filtering `ProxyCommand` content. -/
def sanitize_kwargs (kwargs : Dict) : Except PyErr Dict :=
  sanitizeGo kwargs roster_vals []

/-! ## The job builder (`SSHClient._prep_ssh`) and call shapes -/

/-- `SSHClient._prep_ssh` on the value view: sanitize the overrides,
deep-copy the stored base configuration, lay the sanitized overrides
over the copy, then set `timeout` (when truthy), `argv`,
`selected_target_option`, `tgt` and `arg`.  Returns the job descriptor
the `salt.client.ssh.SSH` engine is constructed from. -/
def prep_ssh (baseOpts : Dict) (tgt fn arg timeout expr_form kwarg : Val)
    (kwargs : Dict) : Except PyErr Dict :=
  match sanitize_kwargs kwargs with
  | .error e => .error e
  | .ok sane =>
    let opts := dictUpdate (pyDeepcopyDict baseOpts) sane
    let opts := if pyTruthy timeout then dictSet opts "timeout" timeout else opts
    let argL := condition_input arg kwarg
    let opts := dictSet opts "argv" (.list (fn :: argL))
    let opts := dictSet opts "selected_target_option" expr_form
    let opts := dictSet opts "tgt" tgt
    let opts := dictSet opts "arg" (.list argL)
    .ok opts

/-- The type of the execution engine's single operation
(`SSH(opts).run_iter(jid=...)`): from a job descriptor and a job id to
the finite sequence of per-target result records.  The engine is
outside this module's source, so it is a parameter. -/
abbrev Engine := Dict → Val → List Dict

/-- `SSHClient.cmd_iter`: build the job, then re-yield the engine's
record sequence unchanged.  The `jid` handed to `run_iter` is read
from the raw `kwargs` (`kwargs.get('jid', None)`), not from the
sanitized copy `_prep_ssh` makes internally. -/
def cmd_iter (run_iter : Engine) (baseOpts : Dict)
    (tgt fn arg timeout expr_form kwarg : Val) (kwargs : Dict) :
    Except PyErr (List Dict) :=
  match prep_ssh baseOpts tgt fn arg timeout expr_form kwarg kwargs with
  | .error e => .error e
  | .ok opts => .ok (run_iter opts (dictGetD kwargs "jid" .none))

/-- `SSHClient.cmd`: build the job, then fold every record of the
engine's sequence into one dictionary via `final.update(ret)`. -/
def cmd (run_iter : Engine) (baseOpts : Dict)
    (tgt fn arg timeout expr_form kwarg : Val) (kwargs : Dict) :
    Except PyErr Dict :=
  match prep_ssh baseOpts tgt fn arg timeout expr_form kwarg kwargs with
  | .error e => .error e
  | .ok opts =>
    .ok ((run_iter opts (dictGetD kwargs "jid" .none)).foldl dictUpdate [])

/-- The six call-shape keys `cmd_sync` strips from the low-data map. -/
def ignoreKeys : List String :=
  ["tgt", "fun", "arg", "timeout", "expr_form", "kwarg"]

/-- `SSHClient.cmd_sync`: deep-copy the low-data map, delete the known
call-shape keys from the copy, and delegate to `cmd` with
`low['tgt']`, `low['fun']` (a missing key raises `KeyError`), the
`low.get` defaults for the rest, and the stripped copy as the
override map. -/
def cmd_sync (run_iter : Engine) (baseOpts : Dict) (low : Dict) :
    Except PyErr Dict :=
  let kwargs := ignoreKeys.foldl dictDel (pyDeepcopyDict low)
  match dictGet low "tgt" with
  | Option.none => .error .keyError
  | Option.some tgtv =>
    match dictGet low "fun" with
    | Option.none => .error .keyError
    | Option.some funv =>
      cmd run_iter baseOpts tgtv funv
        (dictGetD low "arg" (.list []))
        (dictGetD low "timeout" .none)
        (dictGetD low "expr_form" .none)
        (dictGetD low "kwarg" .none)
        kwargs

/-- `SSHClient.cmd_async`: `raise SaltClientError` unconditionally
(the source marks the import "Temporary" and the body "TODO Not
implemented"). -/
def cmd_async (low : Dict) (timeout : Val) : Except PyErr Dict :=
  .error .saltClientError

/-! ## Heap model of `_prep_ssh` for the frame-effect claim

The value view above cannot express what `copy.deepcopy` protects
against: Python dictionaries are mutable heap objects, and
`opts.update(...)` / `opts[k] = v` mutate in place, so without the
deep copy `_prep_ssh` would corrupt `self.opts` and any nested
dictionary shared with other job descriptors.  Here configuration
dictionaries live in an explicit heap: a dictionary is a heap address,
its fields hold either immutable leaves (`HVal.prim`) or references to
other dictionaries (`HVal.ref`).  `deepcopy` allocates fresh addresses
(fuelled, since Python's memo-based cycle handling has no structural
termination), and all of `_prep_ssh`'s writes hit the fresh copy. -/

/-- A field value in a heap dictionary: an immutable leaf or a
reference to another heap dictionary. -/
inductive HVal where
  | prim : Val → HVal
  | ref : Nat → HVal
deriving Repr

/-- A heap dictionary object: insertion-ordered fields. -/
abbrev HObj := List (String × HVal)

/-- The heap: objects addressed by position; allocation appends. -/
abbrev Heap := List HObj

/-- Field assignment inside one heap object (dict-set semantics). -/
def hobjSet : HObj → String → HVal → HObj
  | [], k, v => [(k, v)]
  | (k0, v0) :: rest, k, v =>
    if k0 == k then (k0, v) :: rest else (k0, v0) :: hobjSet rest k v

/-- `heap[a][k] = v`: in-place mutation of the object at address `a`
(identity on a dangling address, which `_prep_ssh` never produces). -/
def heapSetKey (h : Heap) (a : Nat) (k : String) (v : HVal) : Heap :=
  match h.get? a with
  | Option.none => h
  | Option.some obj => h.set a (hobjSet obj k v)

mutual

/-- `copy.deepcopy` of one field value: leaves are copied as values,
a referenced dictionary is copied recursively and re-allocated at a
fresh address.  Fuel bounds the reference depth (`none` = fuel ran
out, which on an acyclic heap just means the fuel was too small). -/
def deepcopyVal : Nat → Heap → HVal → Option (Heap × HVal)
  | _, h, .prim v => Option.some (h, .prim v)
  | 0, _, .ref _ => Option.none
  | fuel + 1, h, .ref a =>
    match h.get? a with
    | Option.none => Option.none
    | Option.some obj =>
      match deepcopyObj fuel h obj with
      | Option.none => Option.none
      | Option.some (h1, obj1) => Option.some (h1 ++ [obj1], .ref h1.length)
termination_by fuel _ _ => (fuel, 0)

/-- `copy.deepcopy` of the fields of one object, threading the heap. -/
def deepcopyObj : Nat → Heap → HObj → Option (Heap × HObj)
  | _, h, [] => Option.some (h, [])
  | fuel, h, (k, v) :: rest =>
    match deepcopyVal fuel h v with
    | Option.none => Option.none
    | Option.some (h1, v1) =>
      match deepcopyObj fuel h1 rest with
      | Option.none => Option.none
      | Option.some (h2, rest1) => Option.some (h2, (k, v1) :: rest1)
termination_by fuel _ o => (fuel, o.length + 1)

end

/-- `copy.deepcopy(self.opts)` at the root: copy the dictionary at
address `a` and allocate the copy at a fresh address. -/
def deepcopyRef (fuel : Nat) (h : Heap) (a : Nat) : Option (Heap × Nat) :=
  match fuel with
  | 0 => Option.none
  | fuel + 1 =>
    match h.get? a with
    | Option.none => Option.none
    | Option.some obj =>
      match deepcopyObj fuel h obj with
      | Option.none => Option.none
      | Option.some (h1, obj1) => Option.some (h1 ++ [obj1], h1.length)

/-- The pure tree of values reachable from a heap reference: what a
caller observes when it reads a configuration dictionary, with all
sharing flattened away.  "Structurally equal" in the frame claim means
equal `HTree`s. -/
inductive HTree where
  | prim : Val → HTree
  | obj : List (String × HTree) → HTree
deriving Repr

mutual

/-- Read the value structure reachable from a field value: the
observation a caller makes of a configuration tree.  Fuelled for the
same reason as `deepcopyVal`. -/
def readVal : Nat → Heap → HVal → Option HTree
  | _, _, .prim v => Option.some (.prim v)
  | 0, _, .ref _ => Option.none
  | fuel + 1, h, .ref a =>
    match h.get? a with
    | Option.none => Option.none
    | Option.some obj =>
      match readObj fuel h obj with
      | Option.none => Option.none
      | Option.some t => Option.some (.obj t)
termination_by fuel _ _ => (fuel, 0)

/-- Read the fields of one object. -/
def readObj : Nat → Heap → HObj → Option (List (String × HTree))
  | _, _, [] => Option.some []
  | fuel, h, (k, v) :: rest =>
    match readVal fuel h v with
    | Option.none => Option.none
    | Option.some t =>
      match readObj fuel h rest with
      | Option.none => Option.none
      | Option.some ts => Option.some ((k, t) :: ts)
termination_by fuel _ o => (fuel, o.length + 1)

end

/-- Every reference stored anywhere in the heap points below the
heap's length (no dangling references). -/
def heapClosed (h : Heap) : Bool :=
  h.all (fun obj => obj.all (fun kv =>
    match kv.2 with
    | .prim _ => true
    | .ref c => decide (c < h.length)))

/-- `SSHClient._prep_ssh` on the heap view, mirroring the source line
by line: sanitize the overrides, `opts = copy.deepcopy(self.opts)`,
`opts.update(kwargs)`, `opts['timeout']` when truthy, then `argv`,
`selected_target_option`, `tgt`, `arg` — every write aimed at the
fresh copy's address.  `none` models a raised exception (a sanitizer
error) or exhausted deep-copy fuel. -/
def prep_ssh_heap (fuel : Nat) (h : Heap) (optsAddr : Nat)
    (tgt fn arg timeout expr_form kwarg : Val) (kwargs : Dict) :
    Option (Heap × Nat) :=
  match sanitize_kwargs kwargs with
  | .error _ => Option.none
  | .ok sane =>
    match deepcopyRef fuel h optsAddr with
    | Option.none => Option.none
    | Option.some (h1, root) =>
      let h2 := sane.foldl (fun hh kv => heapSetKey hh root kv.1 (.prim kv.2)) h1
      let h3 := if pyTruthy timeout then heapSetKey h2 root "timeout" (.prim timeout) else h2
      let argL := condition_input arg kwarg
      let h4 := heapSetKey h3 root "argv" (.prim (.list (fn :: argL)))
      let h5 := heapSetKey h4 root "selected_target_option" (.prim expr_form)
      let h6 := heapSetKey h5 root "tgt" (.prim tgt)
      let h7 := heapSetKey h6 root "arg" (.prim (.list argL))
      Option.some (h7, root)

/-! ## Dictionary lemmas -/

/-- The key list of a dictionary, in order. -/
def dictKeys (d : Dict) : List String := d.map Prod.fst

theorem dictGet_dictSet_self : ∀ (d : Dict) (k : String) (v : Val),
    dictGet (dictSet d k v) k = Option.some v := by
  intro d k v
  induction d with
  | nil => simp [dictSet, dictGet]
  | cons p rest ih =>
    obtain ⟨k0, v0⟩ := p
    by_cases h : k0 = k
    · simp [dictSet, dictGet, h]
    · simp [dictSet, dictGet, h, ih]

theorem dictGet_dictSet_ne : ∀ (d : Dict) (k j : String) (v : Val), k ≠ j →
    dictGet (dictSet d k v) j = dictGet d j := by
  intro d k j v hkj
  induction d with
  | nil => simp [dictSet, dictGet, hkj]
  | cons p rest ih =>
    obtain ⟨k0, v0⟩ := p
    by_cases h : k0 = k
    · simp [dictSet, dictGet, h, hkj]
    · by_cases h2 : k0 = j <;> simp [dictSet, dictGet, h, h2, ih, Ne.symm hkj]

theorem dictGet_eq_none_iff : ∀ (d : Dict) (k : String),
    dictGet d k = Option.none ↔ k ∉ dictKeys d := by
  intro d k
  induction d with
  | nil => simp [dictGet, dictKeys]
  | cons p rest ih =>
    obtain ⟨k0, v0⟩ := p
    by_cases h : k0 = k
    · simp [dictGet, dictKeys, h]
    · simp [dictGet, dictKeys, h, ih]
      intro hk
      exact fun hh => h hh.symm

theorem dictSet_eq_append : ∀ (d : Dict) (k : String) (v : Val),
    dictGet d k = Option.none → dictSet d k v = d ++ [(k, v)] := by
  intro d k v h
  induction d with
  | nil => simp [dictSet]
  | cons p rest ih =>
    obtain ⟨k0, v0⟩ := p
    by_cases hk : k0 = k
    · simp [dictGet, hk] at h
    · simp [dictGet, hk] at h
      simp [dictSet, hk, ih h]

theorem dictGet_append : ∀ (a b : Dict) (k : String),
    dictGet (a ++ b) k =
      match dictGet a k with
      | Option.some v => Option.some v
      | Option.none => dictGet b k := by
  intro a b k
  induction a with
  | nil => simp [dictGet]
  | cons p rest ih =>
    obtain ⟨k0, v0⟩ := p
    by_cases h : k0 = k <;> simp [dictGet, h, ih]

theorem dictKeys_dictSet_absent : ∀ (d : Dict) (k : String) (v : Val),
    dictGet d k = Option.none → dictKeys (dictSet d k v) = dictKeys d ++ [k] := by
  intro d k v h
  rw [dictSet_eq_append d k v h]
  simp [dictKeys]

theorem dictKeys_dictSet_present : ∀ (d : Dict) (k : String) (v : Val),
    dictGet d k ≠ Option.none → dictKeys (dictSet d k v) = dictKeys d := by
  intro d k v h
  induction d with
  | nil => simp [dictGet] at h
  | cons p rest ih =>
    obtain ⟨k0, v0⟩ := p
    by_cases hk : k0 = k
    · simp [dictSet, dictKeys, hk]
    · simp [dictGet, hk] at h
      simp [dictSet, dictKeys, hk]
      simpa [dictKeys] using ih h

theorem length_dictSet_present : ∀ (d : Dict) (k : String) (v : Val),
    dictGet d k ≠ Option.none → (dictSet d k v).length = d.length := by
  intro d k v h
  have := dictKeys_dictSet_present d k v h
  have h1 : (dictKeys (dictSet d k v)).length = (dictKeys d).length := by rw [this]
  simpa [dictKeys] using h1

theorem length_dictSet_absent : ∀ (d : Dict) (k : String) (v : Val),
    dictGet d k = Option.none → (dictSet d k v).length = d.length + 1 := by
  intro d k v h
  rw [dictSet_eq_append d k v h]
  simp

theorem mem_dictKeys_dictSet : ∀ (d : Dict) (k j : String) (v : Val),
    j ∈ dictKeys (dictSet d k v) ↔ j ∈ dictKeys d ∨ j = k := by
  intro d k j v
  by_cases h : dictGet d k = Option.none
  · rw [dictKeys_dictSet_absent d k v h]; simp
  · rw [dictKeys_dictSet_present d k v h]
    constructor
    · exact Or.inl
    · rintro (hj | rfl)
      · exact hj
      · rw [dictGet_eq_none_iff] at h
        simpa using h

/-! ### Folded assignment (`dict.update` and the `cmd` result fold) -/

/-- Repeated `d[k] = v` over a pair list: the shape shared by
`dict.update` and the aggregation fold of `cmd` on singleton
records. -/
def foldSet (d : Dict) (pairs : List (String × Val)) : Dict :=
  pairs.foldl (fun acc p => dictSet acc p.1 p.2) d

theorem foldSet_nil (d : Dict) : foldSet d [] = d := rfl

theorem foldSet_cons (d : Dict) (p : String × Val) (rest : List (String × Val)) :
    foldSet d (p :: rest) = foldSet (dictSet d p.1 p.2) rest := rfl

theorem dictUpdate_eq_foldSet (d r : Dict) : dictUpdate d r = foldSet d r := rfl

theorem dictGet_foldSet_not_mem : ∀ (pairs : List (String × Val)) (d : Dict) (j : String),
    j ∉ dictKeys pairs → dictGet (foldSet d pairs) j = dictGet d j := by
  intro pairs
  induction pairs with
  | nil => intro d j _; rfl
  | cons p rest ih =>
    intro d j hj
    have h1 : j ≠ p.1 ∧ j ∉ dictKeys rest := by
      constructor
      · intro hh; exact hj (by simp [dictKeys, hh])
      · intro hh
        apply hj
        simp [dictKeys] at hh ⊢
        exact Or.inr hh
    rw [foldSet_cons, ih _ j h1.2, dictGet_dictSet_ne d p.1 j p.2 (fun hh => h1.1 hh.symm)]

theorem length_foldSet_le : ∀ (pairs : List (String × Val)) (d : Dict),
    (foldSet d pairs).length ≤ d.length + pairs.length := by
  intro pairs
  induction pairs with
  | nil => intro d; simp [foldSet]
  | cons p rest ih =>
    intro d
    rw [foldSet_cons]
    by_cases h : dictGet d p.1 = Option.none
    · calc (foldSet (dictSet d p.1 p.2) rest).length
          ≤ (dictSet d p.1 p.2).length + rest.length := ih _
        _ = d.length + 1 + rest.length := by rw [length_dictSet_absent d p.1 p.2 h]
        _ = d.length + (rest.length + 1) := by omega
    · calc (foldSet (dictSet d p.1 p.2) rest).length
          ≤ (dictSet d p.1 p.2).length + rest.length := ih _
        _ = d.length + rest.length := by rw [length_dictSet_present d p.1 p.2 h]
        _ ≤ d.length + (rest.length + 1) := by omega

theorem length_foldSet_nodup : ∀ (pairs : List (String × Val)) (d : Dict),
    (pairs.map Prod.fst).Nodup →
    (∀ k, k ∈ pairs.map Prod.fst → k ∉ dictKeys d) →
    (foldSet d pairs).length = d.length + pairs.length := by
  intro pairs
  induction pairs with
  | nil => intro d _ _; simp [foldSet]
  | cons p rest ih =>
    intro d hnd hdis
    rw [foldSet_cons]
    have habs : dictGet d p.1 = Option.none := by
      rw [dictGet_eq_none_iff]
      exact hdis p.1 (by simp)
    rw [List.map_cons, List.nodup_cons] at hnd
    have hrest : ∀ k, k ∈ rest.map Prod.fst → k ∉ dictKeys (dictSet d p.1 p.2) := by
      intro k hk
      rw [mem_dictKeys_dictSet]
      rintro (hkd | rfl)
      · exact hdis k (by simp [hk]) hkd
      · exact hnd.1 hk
    rw [ih _ hnd.2 hrest, length_dictSet_absent d p.1 p.2 habs]
    simp only [List.length_cons]
    omega

theorem length_foldSet_lt : ∀ (pairs : List (String × Val)) (d : Dict),
    (¬ (pairs.map Prod.fst).Nodup ∨ ∃ k, k ∈ pairs.map Prod.fst ∧ k ∈ dictKeys d) →
    (foldSet d pairs).length < d.length + pairs.length := by
  intro pairs
  induction pairs with
  | nil =>
    intro d h
    rcases h with h | ⟨k, hk, _⟩
    · simp at h
    · simp at hk
  | cons p rest ih =>
    intro d h
    rw [foldSet_cons]
    by_cases hp : p.1 ∈ dictKeys d
    · have hlen : (dictSet d p.1 p.2).length = d.length := by
        apply length_dictSet_present
        rw [Ne, dictGet_eq_none_iff]; simpa using hp
      calc (foldSet (dictSet d p.1 p.2) rest).length
          ≤ (dictSet d p.1 p.2).length + rest.length := length_foldSet_le rest _
        _ = d.length + rest.length := by rw [hlen]
        _ < d.length + (p :: rest).length := by
            simp only [List.length_cons]; omega
    · have hlen : (dictSet d p.1 p.2).length ≤ d.length + 1 := by
        by_cases habs : dictGet d p.1 = Option.none
        · rw [length_dictSet_absent d p.1 p.2 habs]
        · rw [length_dictSet_present d p.1 p.2 habs]; omega
      have hnext : ¬ (rest.map Prod.fst).Nodup ∨
          ∃ k, k ∈ rest.map Prod.fst ∧ k ∈ dictKeys (dictSet d p.1 p.2) := by
        rcases h with hnd | ⟨k, hk, hkd⟩
        · rw [List.map_cons, List.nodup_cons] at hnd
          push_neg at hnd
          by_cases hmem : p.1 ∈ rest.map Prod.fst
          · exact Or.inr ⟨p.1, hmem, (mem_dictKeys_dictSet d p.1 p.1 p.2).mpr (Or.inr rfl)⟩
          · exact Or.inl (hnd hmem)
        · rw [List.map_cons, List.mem_cons] at hk
          rcases hk with rfl | hk
          · exact absurd hkd hp
          · exact Or.inr ⟨k, hk, (mem_dictKeys_dictSet d p.1 k p.2).mpr (Or.inl hkd)⟩
      have := ih _ hnext
      calc (foldSet (dictSet d p.1 p.2) rest).length
          < (dictSet d p.1 p.2).length + rest.length := this
        _ ≤ d.length + 1 + rest.length := by omega
        _ = d.length + (p :: rest).length := by
            simp only [List.length_cons]; omega

theorem lookup_append (j : String) : ∀ (a b : List (String × Val)),
    List.lookup j (a ++ b) =
      match List.lookup j a with
      | Option.some v => Option.some v
      | Option.none => List.lookup j b := by
  intro a b
  induction a with
  | nil => simp
  | cons p rest ih =>
    obtain ⟨k0, v0⟩ := p
    by_cases h : j = k0
    · simp [List.lookup, h, ih]
    · have hb : (j == k0) = false := by simp [h]
      simp [List.lookup, hb, ih]

/-- Later pairs win: looking a key up in the fold equals taking the
value of the key's last occurrence in the pair list (the first in the
reversed list), falling back to the initial dictionary. -/
theorem dictGet_foldSet : ∀ (pairs : List (String × Val)) (d : Dict) (j : String),
    dictGet (foldSet d pairs) j =
      match List.lookup j pairs.reverse with
      | Option.some v => Option.some v
      | Option.none => dictGet d j := by
  intro pairs
  induction pairs with
  | nil => intro d j; simp [foldSet]
  | cons p rest ih =>
    intro d j
    rw [foldSet_cons, ih]
    rw [List.reverse_cons, lookup_append]
    cases List.lookup j rest.reverse with
    | some v => rfl
    | none =>
      by_cases h : j = p.1
      · subst h
        simp [List.lookup, dictGet_dictSet_self]
      · have hb : (j == p.1) = false := by simp [h]
        simp [List.lookup, hb, dictGet_dictSet_ne d p.1 j p.2 (Ne.symm h)]

/-! ## Characterization of the sanitizer

`sanitize_kwargs` builds its output with fresh, pairwise-distinct
allow-list keys, so the accumulated dictionary is exactly the
concatenation of the per-entry contributions, in allow-list order.
`entryRes` is one entry's contribution; `entriesM` concatenates them,
stopping at the first uncaught exception — the normal form all the
claims below are proved against. -/

/-- One allow-list entry's contribution to the sanitized output. -/
def entryRes (kwargs : Dict) (nk : String × Kind) :
    Except PyErr (Option (String × Val)) :=
  match dictGet kwargs nk.1 with
  | Option.none => .ok Option.none
  | Option.some v =>
    match stepValue nk.2 v with
    | .error e => .error e
    | .ok Option.none => .ok Option.none
    | .ok (Option.some val) => .ok (Option.some (nk.1, val))

/-- Concatenated contributions of a list of allow-list entries. -/
def entriesM (kwargs : Dict) : List (String × Kind) → Except PyErr Dict
  | [] => .ok []
  | nk :: rest =>
    match entryRes kwargs nk with
    | .error e => .error e
    | .ok o =>
      match entriesM kwargs rest with
      | .error e => .error e
      | .ok es => .ok (o.toList ++ es)

theorem entryRes_key (kwargs : Dict) (nk : String × Kind) (k : String) (v : Val)
    (h : entryRes kwargs nk = .ok (Option.some (k, v))) : k = nk.1 := by
  rw [entryRes] at h
  split at h
  · simp at h
  · split at h
    · simp at h
    · simp at h
    · simp at h
      exact h.1.symm

/-- Inversion: a stored contribution comes from a present input value
whose `stepValue` succeeded with that stored value. -/
theorem entryRes_ok_some (kwargs : Dict) (nk : String × Kind) (k : String) (v1 : Val)
    (h : entryRes kwargs nk = .ok (Option.some (k, v1))) :
    ∃ w, dictGet kwargs nk.1 = Option.some w ∧
      stepValue nk.2 w = .ok (Option.some v1) := by
  rw [entryRes] at h
  split at h
  · simp at h
  · rename_i w hw
    split at h
    · simp at h
    · simp at h
    · rename_i val2 heq2
      simp at h
      exact ⟨w, hw, h.2 ▸ heq2⟩

/-- The loop body of `sanitize_kwargs`, phrased through the per-entry
contribution. -/
theorem sanitizeGo_cons (kwargs : Dict) (nk : String × Kind)
    (rest : List (String × Kind)) (sane : Dict) :
    sanitizeGo kwargs (nk :: rest) sane =
      match entryRes kwargs nk with
      | .error e => .error e
      | .ok Option.none => sanitizeGo kwargs rest sane
      | .ok (Option.some kv) => sanitizeGo kwargs rest (dictSet sane kv.1 kv.2) := by
  rw [sanitizeGo, entryRes]
  split
  · rfl
  · split
    · rfl
    · rfl
    · rfl

theorem sanitizeGo_eq (kwargs : Dict) :
    ∀ (l : List (String × Kind)) (sane : Dict),
    (l.map Prod.fst).Nodup →
    (∀ nk ∈ l, dictGet sane nk.1 = Option.none) →
    sanitizeGo kwargs l sane = (entriesM kwargs l).map (fun es => sane ++ es) := by
  intro l
  induction l with
  | nil => intro sane _ _; simp [sanitizeGo, entriesM, Except.map]
  | cons nk rest ih =>
    intro sane hnd hdis
    rw [List.map_cons, List.nodup_cons] at hnd
    have hdisr : ∀ mk ∈ rest, dictGet sane mk.1 = Option.none :=
      fun mk hmk => hdis mk (List.mem_cons_of_mem nk hmk)
    rw [sanitizeGo_cons, entriesM]
    cases he : entryRes kwargs nk with
    | error e => simp [Except.map]
    | ok o =>
      cases o with
      | none =>
        simp only [ih sane hnd.2 hdisr]
        cases hr : entriesM kwargs rest <;> simp [Except.map]
      | some kv =>
        obtain ⟨k, val⟩ := kv
        have hk : k = nk.1 := entryRes_key kwargs nk k val he
        subst hk
        have habs : dictGet sane nk.1 = Option.none := hdis nk (List.mem_cons_self nk rest)
        have hdisr2 : ∀ mk ∈ rest, dictGet (dictSet sane nk.1 val) mk.1 = Option.none := by
          intro mk hmk
          rw [dictGet_dictSet_ne sane nk.1 mk.1 val, hdisr mk hmk]
          intro heq
          exact hnd.1 (heq ▸ List.mem_map_of_mem Prod.fst hmk)
        rw [dictSet_eq_append sane nk.1 val habs] at hdisr2
        dsimp only
        rw [dictSet_eq_append sane nk.1 val habs,
          ih (sane ++ [(nk.1, val)]) hnd.2 hdisr2]
        cases hr : entriesM kwargs rest <;> simp [Except.map]

theorem roster_names_nodup : (roster_vals.map Prod.fst).Nodup := by decide

/-- The sanitizer in normal form: the concatenation, in allow-list
order, of each allow-list entry's contribution. -/
theorem sanitize_kwargs_eq (kwargs : Dict) :
    sanitize_kwargs kwargs = entriesM kwargs roster_vals := by
  have h := sanitizeGo_eq kwargs roster_vals [] roster_names_nodup (fun nk _ => rfl)
  rw [sanitize_kwargs, h]
  cases entriesM kwargs roster_vals <;> simp [Except.map]

theorem entriesM_keys (kwargs : Dict) :
    ∀ (l : List (String × Kind)) (out : Dict), entriesM kwargs l = .ok out →
    ∀ kv ∈ out, kv.1 ∈ l.map Prod.fst := by
  intro l
  induction l with
  | nil => intro out h kv hkv; rw [entriesM] at h; simp at h; subst h; simp at hkv
  | cons nk rest ih =>
    intro out h kv hkv
    rw [entriesM] at h
    cases he : entryRes kwargs nk with
    | error e => rw [he] at h; simp at h
    | ok o =>
      rw [he] at h
      cases hr : entriesM kwargs rest with
      | error e => rw [hr] at h; simp at h
      | ok es =>
        rw [hr] at h
        simp at h
        subst h
        rcases List.mem_append.mp hkv with hh | hh
        · cases o with
          | none => simp at hh
          | some p =>
            simp at hh
            obtain ⟨k1, v1⟩ := p
            have := entryRes_key kwargs nk k1 v1 he
            subst hh
            simp [this]
        · exact List.mem_cons_of_mem _ (ih es hr kv hh)

/-- Looking an allow-listed name up in the sanitized output returns
exactly that entry's own contribution (allow-list names are pairwise
distinct, so no other entry can shadow it). -/
theorem entriesM_lookup (kwargs : Dict) :
    ∀ (l : List (String × Kind)) (out : Dict), (l.map Prod.fst).Nodup →
    entriesM kwargs l = .ok out →
    ∀ nk ∈ l, ∃ o, entryRes kwargs nk = .ok o ∧
      dictGet out nk.1 = o.map Prod.snd := by
  intro l
  induction l with
  | nil => intro out _ _ nk hnk; simp at hnk
  | cons mk rest ih =>
    intro out hnd h nk hnk
    rw [List.map_cons, List.nodup_cons] at hnd
    rw [entriesM] at h
    cases he : entryRes kwargs mk with
    | error e => rw [he] at h; simp at h
    | ok o =>
      rw [he] at h
      cases hr : entriesM kwargs rest with
      | error e => rw [hr] at h; simp at h
      | ok es =>
        rw [hr] at h
        simp at h
        subst h
        rcases List.mem_cons.mp hnk with rfl | hmem
        · refine ⟨o, he, ?_⟩
          cases o with
          | none =>
            simp [Option.map]
            rw [dictGet_eq_none_iff]
            intro hmem2
            rcases List.mem_map.mp hmem2 with ⟨kv, hkv, hkv2⟩
            exact hnd.1 (hkv2 ▸ entriesM_keys kwargs rest es hr kv hkv)
          | some p =>
            obtain ⟨k1, v1⟩ := p
            have hk1 : k1 = nk.1 := entryRes_key kwargs nk k1 v1 he
            subst hk1
            simp [Option.toList, dictGet]
        · have hne : mk.1 ≠ nk.1 := by
            intro heq
            exact hnd.1 (heq ▸ List.mem_map_of_mem Prod.fst hmem)
          obtain ⟨o2, ho2, hlook⟩ := ih es hnd.2 hr nk hmem
          refine ⟨o2, ho2, ?_⟩
          rw [dictGet_append]
          cases o with
          | none => simpa [Option.toList] using hlook
          | some p =>
            obtain ⟨k1, v1⟩ := p
            have hk1 : k1 = mk.1 := entryRes_key kwargs mk k1 v1 he
            subst hk1
            have hb : (mk.1 == nk.1) = false := by simp [hne]
            simp [Option.toList, dictGet, hb]
            simpa using hlook

/-- `entriesM` reads its input only through `dictGet` at the listed
names. -/
theorem entriesM_ext (d1 d2 : Dict) :
    ∀ (l : List (String × Kind)),
    (∀ nk ∈ l, dictGet d1 nk.1 = dictGet d2 nk.1) →
    entriesM d1 l = entriesM d2 l := by
  intro l
  induction l with
  | nil => intro _; rfl
  | cons nk rest ih =>
    intro hag
    have he : entryRes d1 nk = entryRes d2 nk := by
      rw [entryRes, entryRes, hag nk (List.mem_cons_self nk rest)]
    rw [entriesM, entriesM, he,
      ih (fun mk hmk => hag mk (List.mem_cons_of_mem nk hmk))]

/-! ### Re-sanitization is the identity on sanitized values -/

theorem filterListItems_shape :
    ∀ (items sv : List Val), filterListItems items = .ok sv →
    ∀ x ∈ sv, ∃ s, x = Val.str s ∧ strContains s proxySub = false := by
  intro items
  induction items with
  | nil =>
    intro sv h x hx
    rw [filterListItems] at h
    simp at h
    subst h
    simp at hx
  | cons item rest ih =>
    intro sv h x hx
    cases item with
    | str s =>
      rw [filterListItems] at h
      cases hr : filterListItems rest with
      | error e => rw [hr] at h; simp at h
      | ok r =>
        rw [hr] at h
        by_cases hc : strContains s proxySub = true
        · simp [hc] at h
          subst h
          exact ih r hr x hx
        · simp [hc] at h
          subst h
          rcases List.mem_cons.mp hx with rfl | hx2
          · exact ⟨s, rfl, by simpa using hc⟩
          · exact ih r hr x hx2
    | none => rw [filterListItems] at h; simp at h
    | bool b => rw [filterListItems] at h; simp at h
    | int n => rw [filterListItems] at h; simp at h
    | list l => rw [filterListItems] at h; simp at h

theorem filterListItems_of_clean :
    ∀ (sv : List Val),
    (∀ x ∈ sv, ∃ s, x = Val.str s ∧ strContains s proxySub = false) →
    filterListItems sv = .ok sv := by
  intro sv
  induction sv with
  | nil => intro _; rfl
  | cons x rest ih =>
    intro hcl
    obtain ⟨s, rfl, hs⟩ := hcl x (List.mem_cons_self x rest)
    rw [filterListItems,
      ih (fun y hy => hcl y (List.mem_cons_of_mem _ hy)), hs]
    simp

theorem filterListItems_idem (items sv : List Val)
    (h : filterListItems items = .ok sv) : filterListItems sv = .ok sv :=
  filterListItems_of_clean sv (filterListItems_shape items sv h)

/-- A value the sanitizer stored re-sanitizes to itself: the coercions
are the identity on their own outputs and stored strings/list elements
never contain the filtered substring. -/
theorem stepValue_idem (kind : Kind) (v val : Val)
    (h : stepValue kind v = .ok (Option.some val)) :
    stepValue kind val = .ok (Option.some val) := by
  cases kind with
  | int =>
    rw [stepValue] at h
    cases hi : pyInt v with
    | error e => rw [hi] at h; cases e <;> simp at h
    | ok n =>
      rw [hi] at h
      simp at h
      subst h
      rw [stepValue, pyInt]
  | bool =>
    rw [stepValue] at h
    simp at h
    subst h
    rw [stepValue, pyTruthy]
  | str =>
    rw [stepValue] at h
    by_cases hc : strContains (pyStr v) proxySub = true
    · simp [hc] at h
    · rw [Bool.not_eq_true] at hc
      simp [hc] at h
      subst h
      have hps : pyStr (Val.str (pyStr v)) = pyStr v := rfl
      rw [stepValue]
      simp [hps, hc]
  | list =>
    rw [stepValue] at h
    split at h
    · simp at h
    · simp at h
    · rename_i items heq
      split at h
      · simp at h
      · rename_i sv hf
        simp at h
        subst h
        rw [stepValue, pyList]
        simp [filterListItems_idem items sv hf]

/-- Re-running `entriesM` on its own successful output reproduces that
output. -/
theorem entriesM_idem (kwargs : Dict) :
    ∀ (l : List (String × Kind)) (out : Dict), (l.map Prod.fst).Nodup →
    entriesM kwargs l = .ok out → entriesM out l = .ok out := by
  intro l
  induction l with
  | nil =>
    intro out _ h
    rw [entriesM] at h
    simp at h
    subst h
    rfl
  | cons nk rest ih =>
    intro out hnd h
    rw [List.map_cons, List.nodup_cons] at hnd
    rw [entriesM] at h
    cases he : entryRes kwargs nk with
    | error e => rw [he] at h; simp at h
    | ok o =>
      rw [he] at h
      cases hr : entriesM kwargs rest with
      | error e => rw [hr] at h; simp at h
      | ok es =>
        rw [hr] at h
        simp at h
        subst h
        have hesk : ∀ kv ∈ es, kv.1 ∈ rest.map Prod.fst :=
          entriesM_keys kwargs rest es hr
        have hner : dictGet es nk.1 = Option.none := by
          rw [dictGet_eq_none_iff]
          intro hmem
          rcases List.mem_map.mp hmem with ⟨kv, hkv, hkv2⟩
          exact hnd.1 (hkv2 ▸ hesk kv hkv)
        have hrest : entriesM (o.toList ++ es) rest = entriesM es rest := by
          apply entriesM_ext
          intro mk hmk
          rw [dictGet_append]
          cases o with
          | none => simp [Option.toList, dictGet]
          | some p =>
            obtain ⟨k1, v1⟩ := p
            have hk1 : k1 = nk.1 := entryRes_key kwargs nk k1 v1 he
            subst hk1
            have hb : (nk.1 == mk.1) = false := by
              simp
              intro heq
              exact hnd.1 (heq ▸ List.mem_map_of_mem Prod.fst hmk)
            simp [Option.toList, dictGet, hb]
        have hself : entryRes (o.toList ++ es) nk = .ok o := by
          rw [entryRes]
          cases o with
          | none =>
            simp only [Option.toList, List.nil_append]
            rw [hner]
          | some p =>
            obtain ⟨k1, v1⟩ := p
            have hk1 : k1 = nk.1 := entryRes_key kwargs nk k1 v1 he
            subst hk1
            obtain ⟨w, hw, hsw⟩ := entryRes_ok_some kwargs nk nk.1 v1 he
            have hstep : stepValue nk.2 v1 = .ok (Option.some v1) :=
              stepValue_idem nk.2 w v1 hsw
            have hget : dictGet ((nk.1, v1) :: es) nk.1 = Option.some v1 := by
              simp [dictGet]
            simp only [Option.toList, List.cons_append, List.nil_append]
            rw [hget]
            simp [hstep]
        rw [entriesM, hself, hrest, ih es hnd.2 hr]

/-! ## Heap lemmas for the frame-effect claim -/

/-- `h2` agrees with `h` on every address below `n`. -/
def agreesBelow (n : Nat) (h h2 : Heap) : Prop :=
  ∀ b, b < n → h2.get? b = h.get? b

theorem agreesBelow_append (h t : Heap) : agreesBelow h.length h (h ++ t) :=
  fun _ hb => List.get?_append hb

theorem deepcopyObj_extends_of (fuel : Nat)
    (hval : ∀ (h : Heap) (v : HVal) (h1 : Heap) (v1 : HVal),
      deepcopyVal fuel h v = Option.some (h1, v1) → ∃ t, h1 = h ++ t) :
    ∀ (o : HObj) (h h1 : Heap) (o1 : HObj),
    deepcopyObj fuel h o = Option.some (h1, o1) → ∃ t, h1 = h ++ t := by
  intro o
  induction o with
  | nil =>
    intro h h1 o1 ho
    rw [deepcopyObj] at ho
    simp at ho
    exact ⟨[], by simp [← ho.1]⟩
  | cons kv rest ih =>
    intro h h1 o1 ho
    obtain ⟨k, v⟩ := kv
    rw [deepcopyObj] at ho
    split at ho
    · simp at ho
    · rename_i hA vA hv
      split at ho
      · simp at ho
      · rename_i hB oB hB2
        simp at ho
        obtain ⟨t1, rfl⟩ := hval h v hA vA hv
        obtain ⟨t2, rfl⟩ := ih (h ++ t1) hB oB hB2
        exact ⟨t1 ++ t2, by rw [← ho.1]; simp⟩

theorem deepcopyVal_extends : ∀ (fuel : Nat) (h : Heap) (v : HVal) (h1 : Heap) (v1 : HVal),
    deepcopyVal fuel h v = Option.some (h1, v1) → ∃ t, h1 = h ++ t := by
  intro fuel
  induction fuel with
  | zero =>
    intro h v h1 v1 hv
    cases v with
    | prim p =>
      rw [deepcopyVal] at hv
      simp at hv
      exact ⟨[], by simp [← hv.1]⟩
    | ref a => rw [deepcopyVal] at hv; simp at hv
  | succ f ih =>
    intro h v h1 v1 hv
    cases v with
    | prim p =>
      rw [deepcopyVal] at hv
      simp at hv
      exact ⟨[], by simp [← hv.1]⟩
    | ref a =>
      rw [deepcopyVal] at hv
      split at hv
      · simp at hv
      · rename_i obj hobj
        split at hv
        · simp at hv
        · rename_i hB oB hB2
          simp at hv
          obtain ⟨t, rfl⟩ := deepcopyObj_extends_of f ih obj h hB oB hB2
          exact ⟨t ++ [oB], by rw [← hv.1]; simp⟩

theorem deepcopyRef_extends (fuel : Nat) (h : Heap) (a : Nat) (h1 : Heap) (root : Nat)
    (hc : deepcopyRef fuel h a = Option.some (h1, root)) :
    (∃ t, h1 = h ++ t) ∧ h.length ≤ root := by
  cases fuel with
  | zero => rw [deepcopyRef] at hc; simp at hc
  | succ f =>
    rw [deepcopyRef] at hc
    split at hc
    · simp at hc
    · rename_i obj hobj
      split at hc
      · simp at hc
      · rename_i hB oB hB2
        simp at hc
        obtain ⟨t, rfl⟩ := deepcopyObj_extends_of f (deepcopyVal_extends f) obj h hB oB hB2
        refine ⟨⟨t ++ [oB], by rw [← hc.1]; simp⟩, ?_⟩
        rw [← hc.2]
        simp

theorem get?_heapSetKey_ne (h : Heap) (a b : Nat) (k : String) (v : HVal) (hab : b ≠ a) :
    (heapSetKey h a k v).get? b = h.get? b := by
  rw [heapSetKey]
  split
  · rfl
  · exact List.get?_set_ne _ _ (Ne.symm hab)

theorem agreesBelow_heapSetKey (n : Nat) (h h2 : Heap) (a : Nat) (k : String) (v : HVal)
    (hag : agreesBelow n h h2) (ha : n ≤ a) :
    agreesBelow n h (heapSetKey h2 a k v) := by
  intro b hb
  rw [get?_heapSetKey_ne h2 a b k v (by omega)]
  exact hag b hb

theorem agreesBelow_foldSetKey (n root : Nat) (hroot : n ≤ root) :
    ∀ (sane : Dict) (h h2 : Heap), agreesBelow n h h2 →
    agreesBelow n h
      (sane.foldl (fun hh kv => heapSetKey hh root kv.1 (HVal.prim kv.2)) h2) := by
  intro sane
  induction sane with
  | nil => intro h h2 hag; exact hag
  | cons kv rest ih =>
    intro h h2 hag
    rw [List.foldl_cons]
    exact ih h _ (agreesBelow_heapSetKey n h h2 root kv.1 _ hag hroot)

/-- A field value only references addresses below `n`. -/
def hvalBelow (n : Nat) : HVal → Prop
  | .prim _ => True
  | .ref c => c < n

/-- Propositional form of heap closure. -/
def heapClosedP (h : Heap) : Prop :=
  ∀ obj ∈ h, ∀ kv ∈ obj, hvalBelow h.length kv.2

theorem heapClosed_spec (h : Heap) (hc : heapClosed h = true) : heapClosedP h := by
  rw [heapClosed, List.all_eq_true] at hc
  intro obj hobj kv hkv
  have h1 := hc obj hobj
  rw [List.all_eq_true] at h1
  have h2 := h1 kv hkv
  cases hv : kv.2 with
  | prim p => rw [hvalBelow]; trivial
  | ref c =>
    rw [hv] at h2
    simp at h2
    rw [hvalBelow]
    exact h2

theorem readObj_agrees_of (f : Nat) (h h2 : Heap)
    (hval : ∀ v : HVal, hvalBelow h.length v → readVal f h2 v = readVal f h v) :
    ∀ o : HObj, (∀ kv ∈ o, hvalBelow h.length kv.2) →
    readObj f h2 o = readObj f h o := by
  intro o
  induction o with
  | nil => intro _; rw [readObj, readObj]
  | cons kv rest ih =>
    intro hvs
    rw [readObj, readObj, hval kv.2 (hvs kv (List.mem_cons_self kv rest)),
      ih (fun kv2 hkv2 => hvs kv2 (List.mem_cons_of_mem kv hkv2))]

/-- Reads below the old heap length are unaffected by a heap that
agrees there: the caller's view of any pre-existing dictionary is
unchanged. -/
theorem readVal_agrees : ∀ (g : Nat) (h h2 : Heap),
    heapClosedP h → agreesBelow h.length h h2 →
    ∀ v : HVal, hvalBelow h.length v → readVal g h2 v = readVal g h v := by
  intro g
  induction g with
  | zero =>
    intro h h2 _ _ v _
    cases v with
    | prim p => rw [readVal, readVal]
    | ref c => rw [readVal, readVal]
  | succ f ih =>
    intro h h2 hcl hag v hv
    cases v with
    | prim p => rw [readVal, readVal]
    | ref c =>
      rw [hvalBelow] at hv
      rw [readVal, readVal, hag c hv]
      cases hobj : h.get? c with
      | none => rfl
      | some obj =>
        have hmem : obj ∈ h := List.get?_mem hobj
        simp [readObj_agrees_of f h h2 (ih h h2 hcl hag) obj (hcl obj hmem)]

/-- Every mutation `_prep_ssh` performs lands at or beyond the fresh
copy's address, so the heap after the call agrees with the heap before
it on every pre-existing address. -/
theorem prep_ssh_heap_agrees (fuel : Nat) (h : Heap) (optsAddr : Nat)
    (tgt fn arg timeout expr_form kwarg : Val) (kwargs : Dict) (h2 : Heap) (root : Nat)
    (hrun : prep_ssh_heap fuel h optsAddr tgt fn arg timeout expr_form kwarg kwargs =
      Option.some (h2, root)) :
    agreesBelow h.length h h2 ∧ h.length ≤ root := by
  rw [prep_ssh_heap] at hrun
  split at hrun
  · simp at hrun
  · rename_i sane hsane
    split at hrun
    · simp at hrun
    · rename_i h1 rootc hdc
      simp only [Option.some.injEq, Prod.mk.injEq] at hrun
      obtain ⟨hh2, hroot⟩ := hrun
      subst hroot
      obtain ⟨⟨t, rfl⟩, hle⟩ := deepcopyRef_extends fuel h optsAddr h1 rootc hdc
      have a1 : agreesBelow h.length h (h ++ t) := agreesBelow_append h t
      have a2 : agreesBelow h.length h
          (sane.foldl (fun hh kv => heapSetKey hh rootc kv.1 (HVal.prim kv.2)) (h ++ t)) :=
        agreesBelow_foldSetKey h.length rootc hle sane h (h ++ t) a1
      set hU := sane.foldl (fun hh kv => heapSetKey hh rootc kv.1 (HVal.prim kv.2)) (h ++ t)
        with hUdef
      have a3 : agreesBelow h.length h
          (if pyTruthy timeout then heapSetKey hU rootc "timeout" (HVal.prim timeout)
           else hU) := by
        by_cases ht : pyTruthy timeout
        · rw [if_pos ht]
          exact agreesBelow_heapSetKey h.length h hU rootc _ _ a2 hle
        · rw [if_neg ht]
          exact a2
      refine ⟨?_, hle⟩
      rw [← hh2]
      exact agreesBelow_heapSetKey h.length h _ rootc _ _
        (agreesBelow_heapSetKey h.length h _ rootc _ _
          (agreesBelow_heapSetKey h.length h _ rootc _ _
            (agreesBelow_heapSetKey h.length h _ rootc _ _ a3 hle) hle) hle) hle

/-! ## Small evaluation lemmas for the per-entry contribution -/

theorem entryRes_absent (kwargs : Dict) (name : String) (kind : Kind)
    (hget : dictGet kwargs name = Option.none) :
    entryRes kwargs (name, kind) = .ok Option.none := by
  rw [entryRes]
  dsimp only
  rw [hget]

theorem entryRes_eval (kwargs : Dict) (name : String) (kind : Kind) (v : Val)
    (hget : dictGet kwargs name = Option.some v) :
    entryRes kwargs (name, kind) =
      match stepValue kind v with
      | .error e => .error e
      | .ok Option.none => .ok Option.none
      | .ok (Option.some val) => .ok (Option.some (name, val)) := by
  rw [entryRes]
  dsimp only
  rw [hget]

theorem filterListItems_map_str : ∀ ss : List String,
    filterListItems (ss.map Val.str) =
      .ok ((ss.filter (fun s => !strContains s proxySub)).map Val.str) := by
  intro ss
  induction ss with
  | nil => rfl
  | cons s rest ih =>
    rw [List.map_cons, filterListItems, ih]
    by_cases hc : strContains s proxySub = true
    · simp [hc]
    · rw [Bool.not_eq_true] at hc
      simp [hc]

/-! ## The claims -/

/-- C1: for every override map given to `sanitize_kwargs`, every key of
the returned sanitized map is one of the fifteen allow-listed field
names; keys not on the allow-list are silently omitted — appending an
unlisted key to the input leaves the result unchanged (no error, no
pass-through). -/
theorem C1_allowlist_closure (kwargs out : Dict)
    (hok : sanitize_kwargs kwargs = .ok out) :
    (∀ kv ∈ out, kv.1 ∈ roster_vals.map Prod.fst) ∧
    roster_vals.map Prod.fst =
      ["host", "ssh_user", "ssh_passwd", "ssh_port", "ssh_sudo", "ssh_sudo_user",
       "ssh_priv", "ssh_priv_passwd", "ssh_identities_only",
       "ssh_remote_port_forwards", "ssh_options", "roster_file", "rosters",
       "ignore_host_keys", "raw_shell"] ∧
    (∀ (k : String) (v : Val), k ∉ roster_vals.map Prod.fst →
      sanitize_kwargs (kwargs ++ [(k, v)]) = sanitize_kwargs kwargs) := by
  refine ⟨?_, rfl, ?_⟩
  · rw [sanitize_kwargs_eq] at hok
    exact entriesM_keys kwargs roster_vals out hok
  · intro k v hk
    rw [sanitize_kwargs_eq, sanitize_kwargs_eq]
    apply entriesM_ext
    intro nk hnk
    rw [dictGet_append]
    cases dictGet kwargs nk.1 with
    | some w => rfl
    | none =>
      have hne : k ≠ nk.1 := by
        intro heq
        exact hk (heq ▸ List.mem_map_of_mem Prod.fst hnk)
      simp [dictGet, hne]

/-- C1 witness: a map with one unlisted and one listed key sanitizes
to just the listed key, and the output's keys are allow-listed. -/
theorem C1_witness :
    sanitize_kwargs [("evil_key", Val.str "x"), ("ssh_user", Val.str "root")] =
      .ok [("ssh_user", Val.str "root")] ∧
    ∀ kv ∈ [(("ssh_user" : String), Val.str "root")],
      kv.1 ∈ roster_vals.map Prod.fst :=
  ⟨rfl, (C1_allowlist_closure [("evil_key", Val.str "x"), ("ssh_user", Val.str "root")]
    [("ssh_user", Val.str "root")] rfl).1⟩

/-- C2: a string-typed allow-listed value whose coerced string contains
`'ProxyCommand'` is dropped entirely; a list-typed allow-listed value
of strings keeps its key, with exactly the elements containing the
substring removed. -/
theorem C2_proxycommand_filter (kwargs out : Dict)
    (hok : sanitize_kwargs kwargs = .ok out) :
    (∀ (name : String) (v : Val), (name, Kind.str) ∈ roster_vals →
      dictGet kwargs name = Option.some v →
      strContains (pyStr v) proxySub = true → dictGet out name = Option.none) ∧
    (∀ (name : String) (ss : List String), (name, Kind.list) ∈ roster_vals →
      dictGet kwargs name = Option.some (Val.list (ss.map Val.str)) →
      dictGet out name =
        Option.some (Val.list
          ((ss.filter (fun s => !strContains s proxySub)).map Val.str))) := by
  rw [sanitize_kwargs_eq] at hok
  constructor
  · intro name v hmem hget hcon
    obtain ⟨o, ho, hlook⟩ :=
      entriesM_lookup kwargs roster_vals out roster_names_nodup hok (name, Kind.str) hmem
    rw [entryRes_eval kwargs name Kind.str v hget] at ho
    rw [stepValue] at ho
    simp [hcon] at ho
    rw [← ho] at hlook
    simpa using hlook
  · intro name ss hmem hget
    obtain ⟨o, ho, hlook⟩ :=
      entriesM_lookup kwargs roster_vals out roster_names_nodup hok (name, Kind.list) hmem
    rw [entryRes_eval kwargs name Kind.list (Val.list (ss.map Val.str)) hget] at ho
    rw [stepValue, pyList] at ho
    simp [filterListItems_map_str ss] at ho
    rw [← ho] at hlook
    simpa using hlook

/-- C2 witness: a `ProxyCommand`-carrying string value for `host` is
dropped; the `ssh_options` list keeps only its clean element. -/
theorem C2_witness :
    dictGet [("ssh_options", Val.list [Val.str "-oCompression=yes"])] "host" =
      Option.none ∧
    dictGet [("ssh_options", Val.list [Val.str "-oCompression=yes"])] "ssh_options" =
      Option.some (Val.list [Val.str "-oCompression=yes"]) := by
  have h := C2_proxycommand_filter
    [("host", Val.str "xProxyCommandy"),
     ("ssh_options", Val.list [Val.str "-oProxyCommand=evil", Val.str "-oCompression=yes"])]
    [("ssh_options", Val.list [Val.str "-oCompression=yes"])] rfl
  refine ⟨h.1 "host" (Val.str "xProxyCommandy") (by decide) rfl (by decide), ?_⟩
  exact h.2 "ssh_options" ["-oProxyCommand=evil", "-oCompression=yes"] (by decide) rfl

/-- C8: the sanitizer is idempotent — its output is a fixed point. -/
theorem C8_sanitize_idempotent (kwargs out : Dict)
    (h : sanitize_kwargs kwargs = .ok out) :
    sanitize_kwargs out = .ok out := by
  rw [sanitize_kwargs_eq] at h ⊢
  exact entriesM_idem kwargs roster_vals out roster_names_nodup h

/-- C8 witness: a sanitized map (with a coerced port) re-sanitizes to
itself. -/
theorem C8_witness :
    sanitize_kwargs [("ssh_port", Val.str "22"), ("junk", Val.int 1)] =
      .ok [("ssh_port", Val.int 22)] ∧
    sanitize_kwargs [("ssh_port", Val.int 22)] = .ok [("ssh_port", Val.int 22)] :=
  ⟨rfl, C8_sanitize_idempotent [("ssh_port", Val.str "22"), ("junk", Val.int 1)]
    [("ssh_port", Val.int 22)] rfl⟩

/-- C9: the spec's concrete scenario — the port string is coerced to
the integer 22, the offending `ssh_options` element is removed with
the list kept, and the non-allow-listed key is omitted. -/
theorem C9_scenario :
    sanitize_kwargs [("ssh_port", Val.str "22"),
      ("ssh_options", Val.list [Val.str "-oProxyCommand=evil", Val.str "-oCompression=yes"]),
      ("evil_key", Val.str "x")] =
      .ok [("ssh_port", Val.int 22),
        ("ssh_options", Val.list [Val.str "-oCompression=yes"])] := rfl

/-- C4 counterexample: the sanitizer's `try` catches only `ValueError`,
so coercing `None` with `int` raises `TypeError` straight to the
caller — `sanitize_kwargs` is not total on arbitrary inputs. -/
theorem C4_counterexample :
    sanitize_kwargs [("ssh_port", Val.none)] = .error PyErr.typeError := rfl

/-- A value whose coercion for the given expected type cannot raise an
exception other than `ValueError` (the only kind the source's `try`
catches): for `int`, anything except `None` and lists; for `list`, an
actual list of strings or a string; `bool` and `str` never raise. -/
def coercionSafe : Kind → Val → Prop
  | Kind.int, Val.none => False
  | Kind.int, Val.list _ => False
  | Kind.int, Val.bool _ => True
  | Kind.int, Val.int _ => True
  | Kind.int, Val.str _ => True
  | Kind.list, Val.list l => ∀ x ∈ l, ∃ s, x = Val.str s
  | Kind.list, Val.str _ => True
  | Kind.list, Val.none => False
  | Kind.list, Val.bool _ => False
  | Kind.list, Val.int _ => False
  | Kind.bool, _ => True
  | Kind.str, _ => True

theorem filterListItems_ok_of_strs :
    ∀ l : List Val, (∀ x ∈ l, ∃ s, x = Val.str s) →
    ∃ r, filterListItems l = .ok r := by
  intro l
  induction l with
  | nil => intro _; exact ⟨[], rfl⟩
  | cons x rest ih =>
    intro hall
    obtain ⟨s, rfl⟩ := hall x (List.mem_cons_self x rest)
    obtain ⟨r, hr⟩ := ih (fun y hy => hall y (List.mem_cons_of_mem _ hy))
    rw [filterListItems, hr]
    by_cases hc : strContains s proxySub
    · exact ⟨r, by simp [hc]⟩
    · exact ⟨Val.str s :: r, by simp [hc]⟩

theorem stepValue_ok_of_safe (kind : Kind) (v : Val) (hsafe : coercionSafe kind v) :
    ∃ o, stepValue kind v = .ok o := by
  cases kind with
  | int =>
    rw [stepValue]
    cases v with
    | none => rw [coercionSafe] at hsafe; exact hsafe.elim
    | list l => rw [coercionSafe] at hsafe; exact hsafe.elim
    | bool b => exact ⟨_, rfl⟩
    | int n => exact ⟨_, rfl⟩
    | str s =>
      rw [pyInt]
      cases parseIntStr s with
      | none => exact ⟨Option.none, rfl⟩
      | some n => exact ⟨_, rfl⟩
  | bool => exact ⟨_, rfl⟩
  | str =>
    rw [stepValue]
    by_cases hc : strContains (pyStr v) proxySub = true
    · exact ⟨Option.none, by simp [hc]⟩
    · rw [Bool.not_eq_true] at hc
      exact ⟨Option.some (Val.str (pyStr v)), by simp [hc]⟩
  | list =>
    rw [stepValue]
    cases v with
    | none => rw [coercionSafe] at hsafe; exact hsafe.elim
    | bool b => rw [coercionSafe] at hsafe; exact hsafe.elim
    | int n => rw [coercionSafe] at hsafe; exact hsafe.elim
    | str s =>
      rw [pyList]
      have hstrs : ∀ x ∈ s.data.map (fun c => Val.str (String.mk [c])), ∃ t, x = Val.str t := by
        intro x hx
        rcases List.mem_map.mp hx with ⟨c, _, rfl⟩
        exact ⟨String.mk [c], rfl⟩
      obtain ⟨r, hr⟩ := filterListItems_ok_of_strs _ hstrs
      exact ⟨Option.some (Val.list r), by simp [hr]⟩
    | list l =>
      rw [pyList]
      rw [coercionSafe] at hsafe
      obtain ⟨r, hr⟩ := filterListItems_ok_of_strs l hsafe
      exact ⟨Option.some (Val.list r), by simp [hr]⟩

theorem entriesM_ok_of_safe (kwargs : Dict) :
    ∀ l : List (String × Kind),
    (∀ (name : String) (kind : Kind) (v : Val), (name, kind) ∈ l →
      dictGet kwargs name = Option.some v → coercionSafe kind v) →
    ∃ out, entriesM kwargs l = .ok out := by
  intro l
  induction l with
  | nil => intro _; exact ⟨[], rfl⟩
  | cons nk rest ih =>
    intro hsafe
    obtain ⟨es, hes⟩ := ih (fun name kind v hmem hget =>
      hsafe name kind v (List.mem_cons_of_mem nk hmem) hget)
    obtain ⟨name, kind⟩ := nk
    cases hget : dictGet kwargs name with
    | none =>
      refine ⟨es, ?_⟩
      rw [entriesM, entryRes_absent kwargs name kind hget, hes]
      simp
    | some v =>
      obtain ⟨o, ho⟩ := stepValue_ok_of_safe kind v
        (hsafe name kind v (List.mem_cons_self _ _) hget)
      rw [entriesM, entryRes_eval kwargs name kind v hget, ho]
      cases o with
      | none => exact ⟨es, by rw [hes]; simp⟩
      | some val => exact ⟨(name, val) :: es, by rw [hes]; simp⟩

/-- C4 amended: the sanitizer never raises **provided** every present
allow-listed value's coercion can only fail with `ValueError` (the one
exception kind the source catches): `int` applied to `None` or a list,
`list` applied to a non-iterable, and non-string list elements raise
`TypeError`/`AttributeError` through to the caller (see the
counterexample).  Within that domain, a `ValueError` coercion failure
drops the key with a warning and the call returns a filtered map. -/
theorem C4_amended (kwargs : Dict)
    (hsafe : ∀ (name : String) (kind : Kind) (v : Val), (name, kind) ∈ roster_vals →
      dictGet kwargs name = Option.some v → coercionSafe kind v) :
    (∃ out, sanitize_kwargs kwargs = .ok out) ∧
    (∀ (out : Dict) (name : String) (v : Val), sanitize_kwargs kwargs = .ok out →
      (name, Kind.int) ∈ roster_vals → dictGet kwargs name = Option.some v →
      pyInt v = .error PyErr.valueError → dictGet out name = Option.none) := by
  constructor
  · obtain ⟨out, hout⟩ := entriesM_ok_of_safe kwargs roster_vals hsafe
    exact ⟨out, by rw [sanitize_kwargs_eq, hout]⟩
  · intro out name v hok hmem hget hval
    rw [sanitize_kwargs_eq] at hok
    obtain ⟨o, ho, hlook⟩ :=
      entriesM_lookup kwargs roster_vals out roster_names_nodup hok (name, Kind.int) hmem
    rw [entryRes_eval kwargs name Kind.int v hget, stepValue, hval] at ho
    simp at ho
    rw [← ho] at hlook
    simpa using hlook

/-- C4 witness: a non-numeric port string is dropped (no exception),
the rest of the map survives. -/
theorem C4_witness :
    sanitize_kwargs [("ssh_port", Val.str "abc"), ("host", Val.str "h")] =
      .ok [("host", Val.str "h")] ∧
    dictGet [("host", Val.str "h")] "ssh_port" = Option.none := by
  have h := C4_amended [("ssh_port", Val.str "abc"), ("host", Val.str "h")] (by
    intro name kind v hmem hget
    fin_cases hmem <;> simp [dictGet] at hget <;> (try subst hget) <;> trivial)
  exact ⟨rfl, h.2 [("host", Val.str "h")] "ssh_port" (Val.str "abc") rfl (by decide) rfl rfl⟩

/-- C6 counterexample: the error `cmd_async` raises is the module's
generic `SaltClientError` (imported with a "Temporary" remark), not a
dedicated not-implemented error kind. -/
theorem C6_counterexample :
    cmd_async [("tgt", Val.str "web1")] Val.none = .error PyErr.saltClientError ∧
    PyErr.saltClientError ≠ PyErr.notImplementedError :=
  ⟨rfl, by decide⟩

/-- C6 amended: for every descriptor and timeout, `cmd_async` fails by
raising `SaltClientError` — a reusable client-error kind standing in
for a not-implemented signal — and never returns a result mapping,
partial or fabricated. -/
theorem C6_amended : ∀ (low : Dict) (timeout : Val),
    cmd_async low timeout = .error PyErr.saltClientError ∧
    ∀ res : Dict, cmd_async low timeout ≠ .ok res := by
  intro low timeout
  exact ⟨rfl, fun res h => by simp [cmd_async] at h⟩

/-- A diagnostic engine that reports the job descriptor's
target-selection mode back as its only result record: it makes the
descriptor a job produces observable through the public entry
points. -/
def spyEngine : Engine :=
  fun opts _ => [[("sto", dictGetD opts "selected_target_option" (Val.str "MISSING"))]]

/-- The spec scenario's low-data map for `cmd_sync`. -/
def low5 : Dict :=
  [("tgt", Val.str "web1"), ("fun", Val.str "test.ping"), ("ssh_user", Val.str "root")]

/-- C5 counterexample: `cmd_sync` on the scenario descriptor does
**not** produce the same job descriptor as the direct `cmd` call —
`cmd_sync` passes `low.get('expr_form')`, which is `None` when the
descriptor lacks the key, while a direct call gets `cmd`'s default
`'glob'`; the descriptors differ at `selected_target_option`. -/
theorem C5_counterexample :
    cmd_sync spyEngine [] low5 = .ok [("sto", Val.none)] ∧
    cmd spyEngine [] (Val.str "web1") (Val.str "test.ping") (Val.list []) Val.none
      (Val.str "glob") Val.none [("ssh_user", Val.str "root")] =
      .ok [("sto", Val.str "glob")] ∧
    cmd_sync spyEngine [] low5 ≠
      cmd spyEngine [] (Val.str "web1") (Val.str "test.ping") (Val.list []) Val.none
        (Val.str "glob") Val.none [("ssh_user", Val.str "root")] := by
  refine ⟨rfl, rfl, fun heq => ?_⟩
  have h2 : (Except.ok [("sto", Val.none)] : Except PyErr Dict) =
      Except.ok [("sto", Val.str "glob")] := heq
  simp at h2

/-- C5 amended: for every low-data map containing `tgt` and `fun`,
`cmd_sync` strips the known call-shape fields out of a deep copy,
treats everything else as the override map, and delegates to `cmd` —
with `arg`, `timeout`, `expr_form` and `kwarg` taken by `low.get`, so
the selection mode passed is `None` (not the default `'glob'`) when
the descriptor omits `expr_form`. -/
theorem C5_amended (run_iter : Engine) (baseOpts : Dict) (low : Dict) (tgtv funv : Val)
    (htgt : dictGet low "tgt" = Option.some tgtv)
    (hfun : dictGet low "fun" = Option.some funv) :
    cmd_sync run_iter baseOpts low =
      cmd run_iter baseOpts tgtv funv
        (dictGetD low "arg" (Val.list []))
        (dictGetD low "timeout" Val.none)
        (dictGetD low "expr_form" Val.none)
        (dictGetD low "kwarg" Val.none)
        (ignoreKeys.foldl dictDel low) := by
  rw [cmd_sync, pyDeepcopyDict_eq, htgt, hfun]

/-- C5 witness: the amended equivalence at the scenario descriptor. -/
theorem C5_amended_witness :
    cmd_sync spyEngine [] low5 =
      cmd spyEngine [] (Val.str "web1") (Val.str "test.ping")
        (dictGetD low5 "arg" (Val.list [])) (dictGetD low5 "timeout" Val.none)
        (dictGetD low5 "expr_form" Val.none) (dictGetD low5 "kwarg" Val.none)
        (ignoreKeys.foldl dictDel low5) :=
  C5_amended spyEngine [] low5 (Val.str "web1") (Val.str "test.ping") rfl rfl

/-- Folding singleton records with `dict.update` is repeated
single-key assignment. -/
theorem foldl_update_singletons : ∀ (pairs : List (String × Val)) (d : Dict),
    (pairs.map (fun p => [p])).foldl dictUpdate d = foldSet d pairs := by
  intro pairs
  induction pairs with
  | nil => intro d; rfl
  | cons p rest ih =>
    intro d
    rw [List.map_cons, List.foldl_cons, foldSet_cons]
    exact ih _

/-- C7: when the engine yields one singleton record per pair, `cmd`
returns their fold; with pairwise-distinct target ids the mapping has
exactly one entry per record, with duplicate ids it has strictly
fewer, and the value stored for any id is the **last** record's value
(later records overwrite earlier ones). -/
theorem C7_cmd_aggregation (run_iter : Engine) (baseOpts : Dict)
    (tgt fn arg timeout expr_form kwarg : Val) (kwargs opts : Dict)
    (pairs : List (String × Val))
    (hprep : prep_ssh baseOpts tgt fn arg timeout expr_form kwarg kwargs = .ok opts)
    (heng : run_iter opts (dictGetD kwargs "jid" Val.none) =
      pairs.map (fun p => [p])) :
    cmd run_iter baseOpts tgt fn arg timeout expr_form kwarg kwargs =
      .ok (foldSet [] pairs) ∧
    ((pairs.map Prod.fst).Nodup → (foldSet [] pairs).length = pairs.length) ∧
    (¬ (pairs.map Prod.fst).Nodup → (foldSet [] pairs).length < pairs.length) ∧
    (∀ k, dictGet (foldSet [] pairs) k =
      match List.lookup k pairs.reverse with
      | Option.some v => Option.some v
      | Option.none => Option.none) := by
  refine ⟨?_, ?_, ?_, ?_⟩
  · rw [cmd, hprep]
    dsimp only
    rw [heng, foldl_update_singletons]
  · intro hnd
    have := length_foldSet_nodup pairs [] hnd (by intro k _; simp [dictKeys])
    simpa using this
  · intro hnd
    have := length_foldSet_lt pairs [] (Or.inl hnd)
    simpa using this
  · intro k
    rw [dictGet_foldSet pairs [] k]
    cases List.lookup k pairs.reverse <;> rfl

/-- An engine emitting three singleton records with a duplicated
target id. -/
def engine7 : Engine :=
  fun _ _ => [[("a", Val.int 1)], [("b", Val.int 2)], [("a", Val.int 3)]]

/-- The pairs behind `engine7`'s records. -/
def pairs7 : List (String × Val) :=
  [("a", Val.int 1), ("b", Val.int 2), ("a", Val.int 3)]

/-- The job descriptor `prep_ssh` builds for the witness call. -/
def opts7 : Dict :=
  [("argv", Val.list [Val.str "f"]), ("selected_target_option", Val.str "glob"),
   ("tgt", Val.str "t"), ("arg", Val.list [])]

/-- C7 witness: with a duplicated target id the aggregate has two
entries out of three records, and the duplicated id holds the later
record's value. -/
theorem C7_witness :
    cmd engine7 [] (Val.str "t") (Val.str "f") (Val.list []) Val.none (Val.str "glob")
      Val.none [] = .ok [("a", Val.int 3), ("b", Val.int 2)] ∧
    ¬ (pairs7.map Prod.fst).Nodup ∧
    (foldSet [] pairs7).length < pairs7.length := by
  have h := C7_cmd_aggregation engine7 [] (Val.str "t") (Val.str "f") (Val.list [])
    Val.none (Val.str "glob") Val.none [] opts7 pairs7 rfl rfl
  have hnd : ¬ (pairs7.map Prod.fst).Nodup := by decide
  refine ⟨?_, hnd, h.2.2.1 hnd⟩
  rw [h.1]
  rfl

/-- C10: the job id handed to the engine's `run_iter` comes from the
**raw** override map (`kwargs.get('jid', None)`), even though `jid`
is not allow-listed: it never appears in the sanitized override map,
and the descriptor's `jid` entry (if any) is the base configuration's
own, untouched by the call. -/
theorem C10_jid_from_raw_kwargs (run_iter : Engine) (baseOpts : Dict)
    (tgt fn arg timeout expr_form kwarg : Val) (kwargs out opts : Dict)
    (hs : sanitize_kwargs kwargs = .ok out)
    (hp : prep_ssh baseOpts tgt fn arg timeout expr_form kwarg kwargs = .ok opts) :
    dictGet out "jid" = Option.none ∧
    dictGet opts "jid" = dictGet baseOpts "jid" ∧
    cmd_iter run_iter baseOpts tgt fn arg timeout expr_form kwarg kwargs =
      .ok (run_iter opts (dictGetD kwargs "jid" Val.none)) ∧
    cmd run_iter baseOpts tgt fn arg timeout expr_form kwarg kwargs =
      .ok ((run_iter opts (dictGetD kwargs "jid" Val.none)).foldl dictUpdate []) := by
  have hjid : ∀ (d : Dict), sanitize_kwargs kwargs = .ok d →
      dictGet d "jid" = Option.none := by
    intro d hd
    rw [sanitize_kwargs_eq] at hd
    rw [dictGet_eq_none_iff]
    intro hmem
    rcases List.mem_map.mp hmem with ⟨kv, hkv, hkv2⟩
    have := entriesM_keys kwargs roster_vals d hd kv hkv
    rw [hkv2] at this
    revert this
    decide
  refine ⟨hjid out hs, ?_, ?_, ?_⟩
  · rw [prep_ssh] at hp
    split at hp
    · simp at hp
    · rename_i sane hsane
      simp only [Except.ok.injEq] at hp
      rw [← hp]
      rw [dictGet_dictSet_ne _ "arg" "jid" _ (by decide),
        dictGet_dictSet_ne _ "tgt" "jid" _ (by decide),
        dictGet_dictSet_ne _ "selected_target_option" "jid" _ (by decide),
        dictGet_dictSet_ne _ "argv" "jid" _ (by decide)]
      have hsj : dictGet sane "jid" = Option.none := hjid sane hsane
      have hupd : dictGet (dictUpdate (pyDeepcopyDict baseOpts) sane) "jid" =
          dictGet baseOpts "jid" := by
        rw [dictUpdate_eq_foldSet, pyDeepcopyDict_eq,
          dictGet_foldSet_not_mem sane baseOpts "jid"
            ((dictGet_eq_none_iff sane "jid").mp hsj)]
      by_cases ht : pyTruthy timeout
      · rw [if_pos ht, dictGet_dictSet_ne _ "timeout" "jid" _ (by decide), hupd]
      · rw [if_neg ht, hupd]
  · rw [cmd_iter, hp]
  · rw [cmd, hp]

/-- An engine that reports the job id it was given as its only
record. -/
def spyJidEngine : Engine := fun _ jid => [[("jid_seen", jid)]]

/-- The job descriptor built in the C10 witness call. -/
def opts10 : Dict :=
  [("ssh_user", Val.str "u"), ("argv", Val.list [Val.str "f"]),
   ("selected_target_option", Val.str "glob"), ("tgt", Val.str "t"),
   ("arg", Val.list [])]

/-- C10 witness: with `jid` in the raw override map, the engine sees
that jid even though the sanitized map drops the key. -/
theorem C10_witness :
    cmd_iter spyJidEngine [] (Val.str "t") (Val.str "f") (Val.list []) Val.none
      (Val.str "glob") Val.none [("jid", Val.str "J123"), ("ssh_user", Val.str "u")] =
      .ok [[("jid_seen", Val.str "J123")]] ∧
    dictGet [("ssh_user", Val.str "u")] "jid" = Option.none := by
  have h := C10_jid_from_raw_kwargs spyJidEngine [] (Val.str "t") (Val.str "f")
    (Val.list []) Val.none (Val.str "glob") Val.none
    [("jid", Val.str "J123"), ("ssh_user", Val.str "u")]
    [("ssh_user", Val.str "u")] opts10 rfl rfl
  exact ⟨by rw [h.2.2.1]; rfl, h.1⟩

/-- C3: `_prep_ssh` never mutates the client's stored base
configuration.  On the heap model (mutable dictionaries, real
aliasing), a run of `_prep_ssh` leaves every pre-existing address
untouched: reading the configuration rooted at any old address — the
client's `self.opts` or any other job's descriptor — after the call
yields a value tree structurally equal to the one read before it,
to any depth. -/
theorem C3_prep_ssh_frame (fuel g : Nat) (h : Heap) (optsAddr : Nat)
    (tgt fn arg timeout expr_form kwarg : Val) (kwargs : Dict)
    (h2 : Heap) (root b : Nat)
    (hcl : heapClosed h = true)
    (hrun : prep_ssh_heap fuel h optsAddr tgt fn arg timeout expr_form kwarg kwargs =
      Option.some (h2, root))
    (hb : b < h.length) :
    readVal g h2 (HVal.ref b) = readVal g h (HVal.ref b) := by
  obtain ⟨hag, _⟩ := prep_ssh_heap_agrees fuel h optsAddr tgt fn arg timeout expr_form
    kwarg kwargs h2 root hrun
  exact readVal_agrees g h h2 (heapClosed_spec h hcl) hag (HVal.ref b) hb

/-- A two-dictionary heap: the client's configuration at address 1
holds a nested dictionary at address 0. -/
def heapC3 : Heap :=
  [[("a", HVal.prim (Val.str "x"))],
   [("cfg", HVal.ref 0), ("ssh_user", HVal.prim (Val.str "orig"))]]

/-- The heap after the C3 witness run of `prep_ssh_heap`: the copy
(addresses 2 and 3) took all the writes; addresses 0 and 1 are
byte-for-byte the old objects. -/
def heapC3out : Heap :=
  [[("a", HVal.prim (Val.str "x"))],
   [("cfg", HVal.ref 0), ("ssh_user", HVal.prim (Val.str "orig"))],
   [("a", HVal.prim (Val.str "x"))],
   [("cfg", HVal.ref 2),
    ("ssh_user", HVal.prim (Val.str "u")),
    ("argv", HVal.prim (Val.list [Val.str "f"])),
    ("selected_target_option", HVal.prim (Val.str "glob")),
    ("tgt", HVal.prim (Val.str "t")),
    ("arg", HVal.prim (Val.list []))]]

/-- C3 witness: a concrete `_prep_ssh` run over a nested configuration
leaves the configuration read (including the nested dictionary)
unchanged. -/
theorem C3_witness :
    heapClosed heapC3 = true ∧
    prep_ssh_heap 10 heapC3 1 (Val.str "t") (Val.str "f") (Val.list []) Val.none
      (Val.str "glob") Val.none [("ssh_user", Val.str "u"), ("junk", Val.int 3)] =
      Option.some (heapC3out, 3) ∧
    readVal 5 heapC3out (HVal.ref 1) = readVal 5 heapC3 (HVal.ref 1) := by
  have hrun : prep_ssh_heap 10 heapC3 1 (Val.str "t") (Val.str "f") (Val.list [])
      Val.none (Val.str "glob") Val.none
      [("ssh_user", Val.str "u"), ("junk", Val.int 3)] =
      Option.some (heapC3out, 3) := by
    rw [prep_ssh_heap,
      show sanitize_kwargs [("ssh_user", Val.str "u"), ("junk", Val.int 3)] =
        Except.ok [("ssh_user", Val.str "u")] from rfl]
    simp [deepcopyRef, deepcopyObj, deepcopyVal, heapSetKey, hobjSet, heapC3,
      heapC3out, condition_input, pyTruthy]
  exact ⟨rfl, hrun, C3_prep_ssh_frame 10 5 heapC3 1 (Val.str "t") (Val.str "f")
    (Val.list []) Val.none (Val.str "glob") Val.none
    [("ssh_user", Val.str "u"), ("junk", Val.int 3)] heapC3out 3 1 rfl hrun
    (by decide)⟩

end SaltSSH
